import Mathlib

/-!
Formal model of the pass-synchronized satellite recording pipeline in
`noaa-aouto-windows/scripts/record_schedule.py` (with the duplicated pass
predictor in `scripts/schedule.py`).  Python functions are embedded as
executable Lean definitions: times and durations are exact rationals,
complex baseband samples are pairs of rationals, external capabilities
(orbital propagation, the receiver, the anti-aliasing decimator, the phase
extraction `np.angle`) are parameters of the definitions, and the mutable
`active_recordings` set guarded by `active_lock` becomes an explicit event
transition system.
-/

namespace SatTrack

/-! ## ActiveRecordingRegistry

`record_schedule.py` keeps a module-level `active_recordings : set` guarded
by `active_lock`.  The locked check-and-add in `job_check_and_schedule`
(lines 290-293 / 297-300) is `tryAcquire`; the locked conditional removal in
the `finally` block of `run_record` (lines 247-249) is `release`. -/

/-- The locked check-and-add of `job_check_and_schedule`:
`if name not in active_recordings: active_recordings.add(name)`.
Returns whether the acquire succeeded together with the new set. -/
def tryAcquire (s : Finset String) (n : String) : Bool × Finset String :=
  if n ∈ s then (false, s) else (true, insert n s)

/-- The locked removal in `run_record`'s `finally`:
`if satname in active_recordings: active_recordings.remove(satname)`. -/
def release (s : Finset String) (n : String) : Finset String :=
  if n ∈ s then s.erase n else s

/-- Events of the scheduler/worker interleaving: a scheduler tick attempting
to acquire a name (spawning a worker on success, since the `Thread(...).start()`
happens inside the same locked block), and a worker exiting (its `finally`
releases the name). -/
inductive Ev where
  | tick : String → Ev
  | exitW : String → Ev
deriving DecidableEq

/-- Shared state: the `active_recordings` set, plus the multiset of satellite
names whose recording worker is pending or executing. -/
structure RegState where
  active : Finset String
  jobs : Multiset String

/-- One interleaving step.  A `tick n` performs the locked check-and-add and
spawns a worker iff the acquire succeeded; an `exitW n` retires one worker
for `n` and performs the locked conditional removal. -/
def step (st : RegState) : Ev → RegState
  | Ev.tick n =>
    let r := tryAcquire st.active n
    { active := r.2, jobs := if r.1 then n ::ₘ st.jobs else st.jobs }
  | Ev.exitW n =>
    { active := release st.active n, jobs := st.jobs.erase n }

/-- Run a whole interleaving of scheduler ticks and worker exits. -/
def runEvents (st : RegState) (es : List Ev) : RegState :=
  es.foldl step st

/-- Initial state: no active names, no workers. -/
def init : RegState := ⟨∅, 0⟩

/-- A state is reachable if some interleaving of ticks and exits produces it. -/
def Reachable (st : RegState) : Prop := ∃ es : List Ev, runEvents init es = st

/-- The registry invariant: per name at most one live worker, and the name is
in `active_recordings` exactly when its worker is pending or executing. -/
def RegInv (st : RegState) : Prop :=
  ∀ n : String, st.jobs.count n ≤ 1 ∧ (n ∈ st.active ↔ st.jobs.count n = 1)

lemma regInv_init : RegInv init := by
  intro n
  simp [init]

lemma regInv_step (st : RegState) (e : Ev) (h : RegInv st) : RegInv (step st e) := by
  cases e with
  | tick n =>
    intro m
    obtain ⟨h1, h2⟩ := h m
    by_cases hn : n ∈ st.active
    · simpa [step, tryAcquire, hn] using ⟨h1, h2⟩
    · have hcnt : st.jobs.count n = 0 := by
        by_contra hne
        have : n ∈ st.active := (h n).2.mpr (Nat.le_antisymm (h n).1 (Nat.one_le_iff_ne_zero.mpr hne))
        exact hn this
      by_cases hm : m = n
      · subst hm
        simp [step, tryAcquire, hn, Multiset.count_cons_self, hcnt]
      · simp [step, tryAcquire, hn, Multiset.count_cons_of_ne hm, h1, h2, hm]
  | exitW n =>
    intro m
    obtain ⟨h1, h2⟩ := h m
    by_cases hm : m = n
    · subst hm
      by_cases hn : m ∈ st.active
      · have : st.jobs.count m = 1 := h2.mp hn
        simp [step, release, hn, Multiset.count_erase_self, this]
      · have : st.jobs.count m = 0 := by
          by_contra hne
          exact hn (h2.mpr (Nat.le_antisymm h1 (Nat.one_le_iff_ne_zero.mpr hne)))
        simp [step, release, hn, Multiset.count_erase_self, this, h2]
    · by_cases hn : n ∈ st.active
      · simp [step, release, hn, Multiset.count_erase_of_ne hm, h1, h2, hm]
      · simp [step, release, hn, Multiset.count_erase_of_ne hm, h1, h2]

lemma regInv_run (st : RegState) (es : List Ev) (h : RegInv st) :
    RegInv (runEvents st es) := by
  induction es generalizing st with
  | nil => exact h
  | cons e es ih => exact ih (step st e) (regInv_step st e h)

lemma regInv_reachable (st : RegState) (h : Reachable st) : RegInv st := by
  obtain ⟨es, rfl⟩ := h
  exact regInv_run init es regInv_init

/-- Membership in `active_recordings` persists under any interleaving that
contains no worker-exit for that name. -/
lemma active_persists (es : List Ev) (st : RegState) (n : String)
    (hmem : n ∈ st.active) (hne : ∀ e ∈ es, e ≠ Ev.exitW n) :
    n ∈ (runEvents st es).active := by
  induction es generalizing st with
  | nil => exact hmem
  | cons e es ih =>
    have hstep : n ∈ (step st e).active := by
      cases e with
      | tick m =>
        by_cases hm : m ∈ st.active
        · simpa [step, tryAcquire, hm] using hmem
        · simp [step, tryAcquire, hm]
          exact Or.inr hmem
      | exitW m =>
        have hmn : m ≠ n := fun h => (hne _ (List.mem_cons_self _ _)) (by rw [h])
        by_cases hm : m ∈ st.active
        · simp [step, release, hm, Finset.mem_erase]
          exact ⟨fun h => hmn h.symm, hmem⟩
        · simpa [step, release, hm] using hmem
    exact ih (step st e) hstep (fun e he => hne e (List.mem_cons_of_mem _ he))

/-- Claim C1: registry mutual exclusion.  (1) In every reachable state of the
tick/worker-exit transition system, each satellite name has at most one
pending-or-executing recording job, and the name sits in `active_recordings`
exactly when such a job exists.  (2) After a successful `tryAcquire` for a
name, every further `tryAcquire` for that name fails as long as the matching
worker-exit `release` has not occurred. -/
theorem C1_registry_mutual_exclusion :
    (∀ st : RegState, Reachable st → ∀ n : String,
      st.jobs.count n ≤ 1 ∧ (n ∈ st.active ↔ st.jobs.count n = 1)) ∧
    (∀ (st : RegState) (es : List Ev) (n : String),
      (tryAcquire st.active n).1 = true →
      (∀ e ∈ es, e ≠ Ev.exitW n) →
      (tryAcquire (runEvents (step st (Ev.tick n)) es).active n).1 = false) := by
  constructor
  · exact fun st h n => regInv_reachable st h n
  · intro st es n hacq hne
    have hn : n ∉ st.active := by
      by_contra hmem
      simp [tryAcquire, hmem] at hacq
    have hstep : n ∈ (step st (Ev.tick n)).active := by
      simp [step, tryAcquire, hn]
    have hmem := active_persists es (step st (Ev.tick n)) n hstep hne
    simp [tryAcquire, hmem]

/-- Witness for C1 at a concrete interleaving: after one successful acquire
for "NOAA-19", the job count is at most one and an immediate second acquire
fails. -/
theorem C1_registry_mutual_exclusion_witness :
    (runEvents init [Ev.tick "NOAA-19"]).jobs.count "NOAA-19" ≤ 1 ∧
    (tryAcquire (runEvents (step init (Ev.tick "NOAA-19")) []).active "NOAA-19").1 = false := by
  constructor
  · exact (C1_registry_mutual_exclusion.1 (runEvents init [Ev.tick "NOAA-19"])
      ⟨[Ev.tick "NOAA-19"], rfl⟩ "NOAA-19").1
  · exact C1_registry_mutual_exclusion.2 init [] "NOAA-19" (by decide) (by simp)

/-- Claim C9: registry operation semantics.  From a state where `n` is free:
`tryAcquire n` returns true and marks it busy; an immediately following
`tryAcquire n` returns false; after `release n` a subsequent `tryAcquire n`
returns true again; and `release` of a name that is not held returns the
registry unchanged (idempotent no-op). -/
theorem C9_registry_operation_semantics (s : Finset String) (n : String) (h : n ∉ s) :
    (tryAcquire s n).1 = true ∧
    (tryAcquire (tryAcquire s n).2 n).1 = false ∧
    (tryAcquire (release (tryAcquire s n).2 n) n).1 = true ∧
    release s n = s := by
  refine ⟨by simp [tryAcquire, h], ?_, ?_, by simp [release, h]⟩
  · simp [tryAcquire, h]
  · have h2 : (tryAcquire s n).2 = insert n s := by simp [tryAcquire, h]
    rw [h2]
    have hmem : n ∈ insert n s := Finset.mem_insert_self n s
    have hrel : release (insert n s) n = (insert n s).erase n := by simp [release, hmem]
    rw [hrel]
    simp [tryAcquire]

/-- Witness for C9 at the empty registry and name "NOAA-19". -/
theorem C9_registry_operation_semantics_witness :
    ("NOAA-19" ∉ (∅ : Finset String)) ∧
    ((tryAcquire (∅ : Finset String) "NOAA-19").1 = true ∧
     (tryAcquire (tryAcquire (∅ : Finset String) "NOAA-19").2 "NOAA-19").1 = false ∧
     (tryAcquire (release (tryAcquire (∅ : Finset String) "NOAA-19").2 "NOAA-19") "NOAA-19").1 = true ∧
     release (∅ : Finset String) "NOAA-19" = ∅) :=
  ⟨by decide, C9_registry_operation_semantics ∅ "NOAA-19" (by decide)⟩

/-! ## PassScheduler decision (`job_check_and_schedule`, lines 284-301)

For each satellite the tick walks the predicted passes in order; `start` and
`stop` are the guard-adjusted interval (20 s before AOS, 20 s after LOS) and
`duration = int((stop - start).total_seconds())` is computed once per pass.
The first pass matching either launch rule ends the scan (`break`).  Times
are modelled in seconds as exact rationals. -/

/-- Computable ceiling of a rational, used for `np.ceil` on exact inputs. -/
def ratCeil (q : ℚ) : ℤ := -((-q).floor)

/-- Python `int()` truncation toward zero on a rational. -/
def ratTrunc (q : ℚ) : ℤ := if 0 ≤ q then q.floor else ratCeil q

lemma floor_eq_intFloor (q : ℚ) : q.floor = ⌊q⌋ := by
  rw [Rat.floor_def, Rat.floor_def']

lemma ratCeil_eq_intCeil (q : ℚ) : ratCeil q = ⌈q⌉ := by
  rw [ratCeil, floor_eq_intFloor, Int.floor_neg, neg_neg]

lemma floor_le_self (q : ℚ) : ((q.floor : ℚ)) ≤ q := Rat.le_floor.1 le_rfl

lemma floor_nonneg_of_nonneg {q : ℚ} (h : 0 ≤ q) : 0 ≤ q.floor :=
  Rat.le_floor.2 (by push_cast; exact h)

lemma ratCeil_le_iff {z : ℤ} {q : ℚ} : ratCeil q ≤ z ↔ q ≤ (z : ℚ) := by
  rw [ratCeil, neg_le, Rat.le_floor]
  push_cast
  constructor <;> intro h <;> linarith

lemma le_ratCeil_self (q : ℚ) : q ≤ ((ratCeil q : ℚ)) := ratCeil_le_iff.1 le_rfl

lemma add_one_le_ratCeil_iff {z : ℤ} {q : ℚ} : z + 1 ≤ ratCeil q ↔ (z : ℚ) < q := by
  rw [← Int.lt_iff_add_one_le, ← not_le, ← not_le, ratCeil_le_iff]

/-- The launch decision the tick takes for one satellite: an immediate job
with the given duration, or a job deferred to the given start instant. -/
inductive JobKind where
  | immediate : ℤ → JobKind
  | deferred : ℚ → ℤ → JobKind
deriving DecidableEq

/-- The per-satellite scan of `job_check_and_schedule` over the predicted
passes (lines 284-301): guard margins of 20 s, duration `int(stop - start)`,
immediate launch if `start <= now <= stop`, deferred launch if
`start > now` and `start - now < 10 minutes`; the first applicable pass
stops the scan. -/
def sched_decision (now : ℚ) : List (ℚ × ℚ) → Option JobKind
  | [] => none
  | (aos, los) :: rest =>
    let start := aos - 20
    let stop := los + 20
    let duration := ratTrunc (stop - start)
    if start ≤ now ∧ now ≤ stop then some (JobKind.immediate duration)
    else if now < start ∧ start - now < 600 then some (JobKind.deferred start duration)
    else sched_decision now rest

/-- Counterexample to claim C2: for the pass (AOS 100 s, LOS 200 s) observed
at now = 150 s, the effective interval is [80, 220] and the scheduler
launches an immediate job with duration 140 = stop − start, while the claim
demands effective stop − now = 220 − 150 = 70. -/
theorem C2_counterexample :
    sched_decision 150 [(100, 200)] = some (JobKind.immediate 140) ∧
    (140 : ℤ) ≠ 220 - 150 := by
  refine ⟨?_, by decide⟩
  norm_num [sched_decision, ratTrunc, floor_eq_intFloor]

/-- Claim C2 (amended): when the scheduler launches an immediate recording
job, the duration passed to the job is the truncation of
(effective stop − effective start) of the matched window — not
(effective stop − now). -/
theorem C2_immediate_duration (now : ℚ) (passes : List (ℚ × ℚ)) (d : ℤ)
    (h : sched_decision now passes = some (JobKind.immediate d)) :
    ∃ w ∈ passes, (w.1 - 20) ≤ now ∧ now ≤ (w.2 + 20) ∧
      d = ratTrunc ((w.2 + 20) - (w.1 - 20)) := by
  induction passes with
  | nil => simp [sched_decision] at h
  | cons p rest ih =>
    obtain ⟨aos, los⟩ := p
    by_cases h1 : (aos - 20 ≤ now ∧ now ≤ los + 20)
    · refine ⟨(aos, los), List.mem_cons_self _ _, h1.1, h1.2, ?_⟩
      simp only [sched_decision, if_pos h1, Option.some.injEq, JobKind.immediate.injEq] at h
      exact h.symm
    · by_cases h2 : (now < aos - 20 ∧ aos - 20 - now < 600)
      · simp only [sched_decision] at h
        rw [if_neg h1, if_pos h2] at h
        exact absurd h (by simp)
      · simp only [sched_decision, if_neg h1, if_neg h2] at h
        obtain ⟨w, hw, hprop⟩ := ih h
        exact ⟨w, List.mem_cons_of_mem _ hw, hprop⟩

/-- Witness for C2 (amended) at now = 150 with the single pass (100, 200). -/
theorem C2_immediate_duration_witness :
    sched_decision 150 [(100, 200)] = some (JobKind.immediate 140) ∧
    ∃ w ∈ [((100 : ℚ), (200 : ℚ))], (w.1 - 20) ≤ 150 ∧ (150 : ℚ) ≤ (w.2 + 20) ∧
      (140 : ℤ) = ratTrunc ((w.2 + 20) - (w.1 - 20)) :=
  ⟨by norm_num [sched_decision, ratTrunc, floor_eq_intFloor],
   C2_immediate_duration 150 [(100, 200)] 140
     (by norm_num [sched_decision, ratTrunc, floor_eq_intFloor])⟩

/-! ## PassPredictor (`get_local_passes`, record_schedule.py lines 110-137)

The predictor samples the elevation at `t0 + i * step_minutes` for
`i in range(int(minutes_ahead / step_minutes) + 1)` and scans the samples
with an in-pass flag.  The loop body runs two `if`s in sequence:

  if alt >= elev_mask_deg and not inpass: inpass = True;  start = t0 + i*step
  if alt <  elev_mask_deg and inpass:     append (start, t0 + i*step); inpass = False

Since `alt >= mask` and `alt < mask` are exclusive and exhaustive, one
iteration is exactly one of: open a window, close the window, or no change;
`passLoop` below inlines the two sequential `if`s into those exclusive
branches.  After the scan, a still-open window is closed at the horizon
boundary `t1 = t0 + minutes_ahead`.  The external orbital propagation is the
parameter `elev` (elevation in degrees as a function of sample time). -/

/-- The sample scan of `get_local_passes`: walk the remaining elevation
samples (sample `i` taken at `t0 + i * s`), maintaining the in-pass flag and
window start; on exhaustion close a still-open window at `t1`. -/
def passLoop (t0 s mask t1 : ℚ) : List ℚ → ℕ → Bool → ℚ → List (ℚ × ℚ) → List (ℚ × ℚ)
  | [], _, inpass, start, acc => if inpass then acc ++ [(start, t1)] else acc
  | alt :: rest, i, inpass, start, acc =>
    if mask ≤ alt ∧ inpass = false then
      passLoop t0 s mask t1 rest (i + 1) true (t0 + (i : ℚ) * s) acc
    else if alt < mask ∧ inpass = true then
      passLoop t0 s mask t1 rest (i + 1) false start (acc ++ [(start, t0 + (i : ℚ) * s)])
    else
      passLoop t0 s mask t1 rest (i + 1) inpass start acc

/-- `get_local_passes(sat, minutes_ahead, step_minutes, elev_mask_deg)` from
record_schedule.py: sample count `int(minutes_ahead / step_minutes) + 1`
(clamped at zero as Python `range` does), samples at `t0 + i * step`, scan
with `passLoop`, horizon boundary `t0 + minutes_ahead`. -/
def get_local_passes (elev : ℚ → ℚ) (t0 minutes_ahead step_minutes elev_mask_deg : ℚ) :
    List (ℚ × ℚ) :=
  let n : ℕ := (ratTrunc (minutes_ahead / step_minutes) + 1).toNat
  let alts := (List.range n).map fun i : ℕ => elev (t0 + (i : ℚ) * step_minutes)
  passLoop t0 step_minutes elev_mask_deg (t0 + minutes_ahead) alts 0 false 0 []

lemma mem_of_mem_getLast? {α : Type} {l : List α} {x : α} (h : x ∈ l.getLast?) : x ∈ l := by
  obtain ⟨hne, rfl⟩ := List.mem_getLast?_eq_getLast h
  exact List.getLast_mem hne

/-- Invariant-carrying specification of the sample scan: provided every
already-accumulated window closed at least one step before the current
sample, the scan yields windows with AOS ≤ LOS (strict for every window
except possibly the horizon-truncated last one), chained so that each LOS is
strictly before the next AOS. -/
lemma passLoop_spec (t0 s mask t1 : ℚ) (hs : 0 < s) :
    ∀ (alts : List ℚ) (i : ℕ) (inpass : Bool) (start : ℚ) (acc : List (ℚ × ℚ)),
    t0 + ((i : ℚ) + (alts.length : ℚ) - 1) * s ≤ t1 →
    (∀ w ∈ acc, w.1 < w.2) →
    List.Chain' (fun a b : ℚ × ℚ => a.2 < b.1) acc →
    (∀ w ∈ acc, w.2 + s ≤ t0 + (i : ℚ) * s) →
    (inpass = true → (∀ w ∈ acc, w.2 < start) ∧ start + s ≤ t0 + (i : ℚ) * s) →
    (∀ w ∈ passLoop t0 s mask t1 alts i inpass start acc, w.1 ≤ w.2) ∧
      List.Chain' (fun a b : ℚ × ℚ => a.2 < b.1) (passLoop t0 s mask t1 alts i inpass start acc) ∧
      (∀ w ∈ (passLoop t0 s mask t1 alts i inpass start acc).dropLast, w.1 < w.2) := by
  intro alts
  induction alts with
  | nil =>
    intro i inpass start acc hbound hstrict hchain hacc hin
    cases inpass with
    | false =>
      simp only [passLoop, Bool.false_eq_true, if_false]
      exact ⟨fun w hw => le_of_lt (hstrict w hw), hchain,
        fun w hw => hstrict w (List.dropLast_subset _ hw)⟩
    | true =>
      obtain ⟨hlt, hstart⟩ := hin rfl
      have hstart_t1 : start ≤ t1 := by
        simp only [List.length_nil, Nat.cast_zero] at hbound
        nlinarith
      simp only [passLoop, if_true]
      refine ⟨?_, ?_, ?_⟩
      · intro w hw
        rcases List.mem_append.1 hw with h | h
        · exact le_of_lt (hstrict w h)
        · rcases List.mem_singleton.1 h with rfl
          exact hstart_t1
      · refine List.chain'_append.2 ⟨hchain, List.chain'_singleton _, ?_⟩
        intro x hx y hy
        rcases Option.mem_some_iff.1 hy with rfl
        exact hlt x (mem_of_mem_getLast? hx)
      · intro w hw
        rw [List.dropLast_concat] at hw
        exact hstrict w hw
  | cons alt rest ih =>
    intro i inpass start acc hbound hstrict hchain hacc hin
    have hb' : t0 + (((i + 1 : ℕ) : ℚ) + (rest.length : ℚ) - 1) * s ≤ t1 := by
      simp only [List.length_cons, Nat.cast_succ] at hbound
      push_cast
      linarith
    have hacc' : ∀ w ∈ acc, w.2 + s ≤ t0 + ((i + 1 : ℕ) : ℚ) * s := by
      intro w hw
      have := hacc w hw
      push_cast
      nlinarith
    by_cases hma : mask ≤ alt
    · cases inpass with
      | false =>
        rw [passLoop, if_pos ⟨hma, rfl⟩]
        refine ih (i + 1) true (t0 + (i : ℚ) * s) acc hb' hstrict hchain hacc' ?_
        intro _
        refine ⟨fun w hw => ?_, ?_⟩
        · have := hacc w hw
          linarith
        · push_cast
          nlinarith
      | true =>
        have hc1 : ¬(mask ≤ alt ∧ (true = false)) := by simp
        have hc2 : ¬(alt < mask ∧ (true = true)) := fun h => absurd h.1 (not_lt.2 hma)
        rw [passLoop, if_neg hc1, if_neg hc2]
        obtain ⟨hlt, hstart⟩ := hin rfl
        refine ih (i + 1) true start acc hb' hstrict hchain hacc' ?_
        intro _
        refine ⟨hlt, ?_⟩
        push_cast
        nlinarith
    · have hma' : alt < mask := not_le.1 hma
      cases inpass with
      | false =>
        have hc1 : ¬(mask ≤ alt ∧ (false = false)) := fun h => hma h.1
        have hc2 : ¬(alt < mask ∧ (false = true)) := by simp
        rw [passLoop, if_neg hc1, if_neg hc2]
        refine ih (i + 1) false start acc hb' hstrict hchain hacc' ?_
        intro h
        exact absurd h (by simp)
      | true =>
        have hc1 : ¬(mask ≤ alt ∧ (true = false)) := by simp
        rw [passLoop, if_neg hc1, if_pos ⟨hma', rfl⟩]
        obtain ⟨hlt, hstart⟩ := hin rfl
        have hnew : start < t0 + (i : ℚ) * s := by linarith
        refine ih (i + 1) false start (acc ++ [(start, t0 + (i : ℚ) * s)]) hb' ?_ ?_ ?_ ?_
        · intro w hw
          rcases List.mem_append.1 hw with h | h
          · exact hstrict w h
          · rcases List.mem_singleton.1 h with rfl
            exact hnew
        · refine List.chain'_append.2 ⟨hchain, List.chain'_singleton _, ?_⟩
          intro x hx y hy
          rcases Option.mem_some_iff.1 hy with rfl
          exact hlt x (mem_of_mem_getLast? hx)
        · intro w hw
          rcases List.mem_append.1 hw with h | h
          · exact hacc' w h
          · rcases List.mem_singleton.1 h with rfl
            push_cast
            nlinarith
        · intro h
          exact absurd h (by simp)

/-- Counterexample to claim C3: a profile that first rises above the 10°
mask at the final sample of a 2-minute horizon with 1-minute steps makes
`get_local_passes` return the single zero-duration window (2, 2) — its AOS
is not strictly before its LOS. -/
theorem C3_counterexample :
    get_local_passes (fun t => if t < 2 then 0 else 90) 0 2 1 10 = [(2, 2)] ∧
    ¬ ((2 : ℚ) < 2) := by
  refine ⟨?_, lt_irrefl 2⟩
  have hn : ((ratTrunc ((2 : ℚ) / 1) + 1).toNat) = 3 := by
    norm_num [ratTrunc, floor_eq_intFloor]
    decide
  rw [get_local_passes]
  simp only [hn]
  norm_num [List.range_succ, passLoop]

/-- Claim C3 (amended): for every elevation profile, positive step and
nonnegative horizon, every returned window has AOS ≤ LOS (strictly, except
possibly for a horizon-truncated window opened at the final sample, which
can collapse to zero duration), each window's LOS is strictly before the
next window's AOS (so windows are pairwise non-overlapping), and the windows
are sorted by AOS ascending. -/
theorem C3_pass_window_shape (elev : ℚ → ℚ) (t0 m s mask : ℚ)
    (hs : 0 < s) (hm : 0 ≤ m) :
    (∀ w ∈ get_local_passes elev t0 m s mask, w.1 ≤ w.2) ∧
      List.Chain' (fun a b : ℚ × ℚ => a.2 < b.1) (get_local_passes elev t0 m s mask) ∧
      (∀ w ∈ (get_local_passes elev t0 m s mask).dropLast, w.1 < w.2) := by
  have hdivnn : 0 ≤ m / s := div_nonneg hm (le_of_lt hs)
  have htr : ratTrunc (m / s) = (m / s).floor := by
    simp [ratTrunc, hdivnn]
  have hflnn : 0 ≤ (m / s).floor := floor_nonneg_of_nonneg hdivnn
  have h01 : (0 : ℤ) ≤ (m / s).floor + 1 := by omega
  have h2 : (((m / s).floor + 1).toNat : ℤ) = (m / s).floor + 1 := Int.toNat_of_nonneg h01
  have hcast : (((ratTrunc (m / s) + 1).toNat : ℚ)) = (((m / s).floor : ℚ)) + 1 := by
    rw [htr]
    exact_mod_cast congrArg (fun z : ℤ => (z : ℚ)) h2
  have hbound : t0 + ((((ratTrunc (m / s) + 1).toNat : ℚ)) - 1) * s ≤ t0 + m := by
    rw [hcast]
    have h1 : (((m / s).floor : ℚ)) ≤ m / s := floor_le_self _
    have h3 : (((m / s).floor : ℚ)) * s ≤ (m / s) * s :=
      mul_le_mul_of_nonneg_right h1 (le_of_lt hs)
    rw [div_mul_cancel₀ m (ne_of_gt hs)] at h3
    linarith
  have hmain := passLoop_spec t0 s mask (t0 + m) hs
    ((List.range ((ratTrunc (m / s) + 1).toNat)).map fun i : ℕ => elev (t0 + (i : ℚ) * s))
    0 false 0 []
    (by simp only [List.length_map, List.length_range, Nat.cast_zero, zero_add]; exact hbound)
    (by simp) (by simp) (by simp) (by simp)
  simpa [get_local_passes] using hmain

/-- Witness for C3 (amended) at the concrete profile of the counterexample
configuration: step 1 > 0 and horizon 2 ≥ 0. -/
theorem C3_pass_window_shape_witness :
    (0 : ℚ) < 1 ∧ (0 : ℚ) ≤ 2 ∧
    (∀ w ∈ get_local_passes (fun t => if t < 2 then (0 : ℚ) else 90) 0 2 1 10, w.1 ≤ w.2) :=
  ⟨by norm_num, by norm_num,
    (C3_pass_window_shape (fun t => if t < 2 then (0 : ℚ) else 90) 0 2 1 10
      (by norm_num) (by norm_num)).1⟩

/-! ## CapturePipeline chunking (`record_with_pyrtlsdr`, lines 157-211)

Constants from the CONFIG block of record_schedule.py. -/

/-- `RTL_SAMPLE_RATE = 2_400_000` (line 46). -/
def RTL_SAMPLE_RATE : ℕ := 2400000

/-- `CHUNK_SECONDS = 0.25` (line 47). -/
def CHUNK_SECONDS : ℚ := 1/4

/-- `DECIMATE_STAGE1 = 50` (line 52). -/
def DECIMATE_STAGE1 : ℕ := 50

/-- `DECIMATE_STAGE2 = 4` (line 53). -/
def DECIMATE_STAGE2 : ℕ := 4

/-- `total_chunks = max(1, int(np.ceil(duration_s / CHUNK_SECONDS)))` (line 167). -/
def total_chunks (duration_s : ℚ) : ℕ :=
  max 1 (ratCeil (duration_s / CHUNK_SECONDS)).toNat

/-- Seconds covered by chunk `i` (lines 178-179):
`remaining = duration_s - i * CHUNK_SECONDS`;
`cur_chunk_s = min(CHUNK_SECONDS, max(0.001, remaining))`. -/
def cur_chunk_s (duration_s : ℚ) (i : ℕ) : ℚ :=
  min CHUNK_SECONDS (max (1/1000) (duration_s - (i : ℚ) * CHUNK_SECONDS))

/-- Counterexample to claim C4: for the requested duration 1/2000 s (0.5 ms)
there is exactly one chunk, and it covers the clamped 0.001 s rather than
exactly the remaining 1/2000 s. -/
theorem C4_counterexample :
    total_chunks (1/2000) = 1 ∧ cur_chunk_s (1/2000) 0 = 1/1000 ∧
    ((1 : ℚ)/1000) ≠ 1/2000 := by
  refine ⟨?_, ?_, by norm_num⟩
  · have h1 : ratCeil ((1/2000 : ℚ) / CHUNK_SECONDS) = 1 := by
      norm_num [ratCeil, CHUNK_SECONDS, floor_eq_intFloor]
    simp only [total_chunks, h1]
    decide
  · norm_num [cur_chunk_s, CHUNK_SECONDS, max_def, min_def]

/-- Claim C4 (amended): for every duration d > 0 the capture loop processes
exactly `ceil(d / 0.25)` chunks; every chunk before the last covers exactly
0.25 s; the last chunk covers `max(0.001 s, remaining)` — the exact remaining
time whenever that remainder is at least 1 ms, else clamped up to 1 ms.  In
particular d = 10 s gives 40 chunks with the last covering a full 0.25 s, and
d = 10.1 s gives 41 chunks with the 41st covering 0.1 s. -/
theorem C4_chunk_partitioning (d : ℚ) (hd : 0 < d) :
    total_chunks d = (ratCeil (d / CHUNK_SECONDS)).toNat ∧
    (∀ i : ℕ, i + 1 < total_chunks d → cur_chunk_s d i = CHUNK_SECONDS) ∧
    cur_chunk_s d (total_chunks d - 1) =
      max (1/1000) (d - ((total_chunks d - 1 : ℕ) : ℚ) * CHUNK_SECONDS) ∧
    total_chunks 10 = 40 ∧ cur_chunk_s 10 39 = CHUNK_SECONDS ∧
    total_chunks (101/10) = 41 ∧ cur_chunk_s (101/10) 40 = 1/10 := by
  have hdiv : d / CHUNK_SECONDS = 4 * d := by
    have h4 : ((1 : ℚ)/4)⁻¹ = 4 := by norm_num
    rw [CHUNK_SECONDS, div_eq_mul_inv, h4, mul_comm]
  have hc1 : (0 : ℤ) + 1 ≤ ratCeil (d / CHUNK_SECONDS) := by
    rw [add_one_le_ratCeil_iff, hdiv]
    push_cast
    linarith
  have htn : 1 ≤ (ratCeil (d / CHUNK_SECONDS)).toNat := by omega
  have htc : total_chunks d = (ratCeil (d / CHUNK_SECONDS)).toNat := by
    rw [total_chunks]
    exact max_eq_right htn
  have hcd : 4 * d ≤ ((ratCeil (d / CHUNK_SECONDS) : ℚ)) := by
    rw [← hdiv]
    exact le_ratCeil_self _
  refine ⟨htc, ?_, ?_, ?_, ?_, ?_, ?_⟩
  · intro i hi
    rw [htc] at hi
    have hiz : ((i : ℤ) + 1) + 1 ≤ ratCeil (d / CHUNK_SECONDS) := by omega
    have hlt : (((i : ℤ) + 1 : ℤ) : ℚ) < d / CHUNK_SECONDS := add_one_le_ratCeil_iff.1 hiz
    rw [hdiv] at hlt
    push_cast at hlt
    have hr : (1 : ℚ)/4 < d - (i : ℚ) * ((1 : ℚ)/4) := by linarith
    have hmax : max ((1 : ℚ)/1000) (d - (i : ℚ) * ((1 : ℚ)/4)) = d - (i : ℚ) * ((1 : ℚ)/4) :=
      max_eq_right (by linarith)
    simp only [cur_chunk_s, CHUNK_SECONDS, hmax]
    exact min_eq_left (le_of_lt hr)
  · have hnn : (0 : ℤ) ≤ ratCeil (d / CHUNK_SECONDS) := by omega
    have hnc : (((ratCeil (d / CHUNK_SECONDS)).toNat : ℚ)) = ((ratCeil (d / CHUNK_SECONDS) : ℚ)) := by
      exact_mod_cast congrArg (fun z : ℤ => (z : ℚ)) (Int.toNat_of_nonneg hnn)
    have hn1 : ((total_chunks d - 1 : ℕ) : ℚ) = ((ratCeil (d / CHUNK_SECONDS) : ℚ)) - 1 := by
      rw [htc, Nat.cast_sub htn, hnc, Nat.cast_one]
    have hr2 : d - ((total_chunks d - 1 : ℕ) : ℚ) * CHUNK_SECONDS ≤ CHUNK_SECONDS := by
      rw [hn1]
      rw [CHUNK_SECONDS] at hcd ⊢
      linarith
    simp only [cur_chunk_s]
    exact min_eq_right (max_le (by rw [CHUNK_SECONDS]; norm_num) hr2)
  · have h10 : ratCeil ((10 : ℚ) / CHUNK_SECONDS) = 40 := by
      norm_num [ratCeil, CHUNK_SECONDS, floor_eq_intFloor]
    simp only [total_chunks, h10]
    decide
  · norm_num [cur_chunk_s, CHUNK_SECONDS, max_def, min_def]
  · have h101 : ratCeil ((101/10 : ℚ) / CHUNK_SECONDS) = 41 := by
      norm_num [ratCeil, CHUNK_SECONDS, floor_eq_intFloor]
    simp only [total_chunks, h101]
    decide
  · norm_num [cur_chunk_s, CHUNK_SECONDS, max_def, min_def]

/-- Witness for C4 (amended) at d = 10.1 s. -/
theorem C4_chunk_partitioning_witness :
    (0 : ℚ) < 101/10 ∧ total_chunks (101/10) = (ratCeil ((101/10) / CHUNK_SECONDS)).toNat :=
  ⟨by norm_num, (C4_chunk_partitioning (101/10) (by norm_num)).1⟩

/-! ## CapturePipeline signal path (`fm_demodulate` lines 144-150, chunk loop
lines 176-206, cleanup lines 208-211)

Complex baseband samples are exact rational pairs.  The external capabilities
are parameters: `angle` is `np.angle` (phase extraction), `dec` is
`scipy.signal.decimate` returning `none` on numerical failure, `read i` is
`sdr.read_samples` for chunk `i` (`none` = read error), and `procOk i = false`
models an uncaught exception raised while processing chunk `i` (demodulation,
normalization, conversion or `writeframes`). -/

/-- Complex baseband samples as exact rational pairs (re, im). -/
abbrev Cq : Type := ℚ × ℚ

/-- Complex multiplication on rational pairs. -/
def cmul (a b : Cq) : Cq := (a.1 * b.1 - a.2 * b.2, a.1 * b.2 + a.2 * b.1)

/-- Complex conjugation on rational pairs. -/
def cconj (a : Cq) : Cq := (a.1, -a.2)

/-- `fm_demodulate(iq, prev_sample)` (lines 144-150): prefix the continuity
anchor when present, take `np.angle(iq[1:] * np.conj(iq[:-1]))` — entry `k`
is the phase of `full[k+1] * conj(full[k])` — and return it together with the
last raw sample of the prefixed block (`iq[-1]`, modelled as `getLast?`; in
the source the block is nonempty, `cur_samples ≥ 2400`). -/
def fm_demodulate (angle : Cq → ℚ) (iq : List Cq) (prev : Option Cq) :
    List ℚ × Option Cq :=
  let full := match prev with
    | some p => p :: iq
    | none => iq
  (List.zipWith (fun a b => angle (cmul a (cconj b))) full.tail full.dropLast,
   full.getLast?)

/-- Naive stride downsampling `ph[::k]` (line 198), the decimation fallback. -/
def stride (l : List ℚ) (k : ℕ) : List ℚ :=
  (l.enum.filter fun p => p.1 % k = 0).map Prod.snd

/-- `np.max(np.abs(chunk))` (lines 201-202); 0 for the empty chunk (the
source never sees an empty chunk: every read block is nonempty). -/
def peak (l : List ℚ) : ℚ := (l.map fun x => |x|).foldr max 0

/-- Per-chunk normalization (lines 200-202): if the chunk's peak magnitude
is positive, scale the chunk to 90% of full scale by its own peak. -/
def normalize (l : List ℚ) : List ℚ :=
  if 0 < peak l then l.map fun x => x / peak l * (9/10) else l

/-- `np.int16(np.clip(audio * 32767, -32768, 32767))` (line 205): scale,
clip to the representable range, truncate toward zero. -/
def toPCM (l : List ℚ) : List ℤ :=
  l.map fun x => ratTrunc (min 32767 (max (-32768) (x * 32767)))

/-- One chunk's decimate / fallback / normalize / convert path (lines
191-205): two cascaded `decimate` stages inside a `try`; if either stage
fails, the chunk falls back to naive striding of `ph` by the combined factor;
the result is normalized and converted either way. -/
def processChunk (dec : List ℚ → ℕ → Option (List ℚ)) (ph : List ℚ) : List ℤ :=
  let audio12k :=
    match dec ph DECIMATE_STAGE1 with
    | some audio48k =>
      match dec audio48k DECIMATE_STAGE2 with
      | some a => a
      | none => stride ph (DECIMATE_STAGE1 * DECIMATE_STAGE2)
    | none => stride ph (DECIMATE_STAGE1 * DECIMATE_STAGE2)
  toPCM (normalize audio12k)

/-- How the chunk loop of one capture run ends. -/
inductive ExitKind where
  | completed : ExitKind
  | readFailure : ℕ → ExitKind
  | procException : ℕ → ExitKind
deriving DecidableEq

/-- Chunk-loop outcome: exit kind, PCM frames written to the file so far,
and ghost counters of demodulated and raw samples. -/
structure LoopOut where
  exit : ExitKind
  frames : List ℤ
  demodCount : ℕ
  rawCount : ℕ

/-- The chunk loop (lines 176-206), by remaining chunk count and current
index: a failed read breaks out of the loop (caught, lines 182-186); an
uncaught processing exception aborts the loop and propagates; otherwise the
chunk's PCM is appended and the anchor is threaded to the next chunk. -/
def captureLoop (angle : Cq → ℚ) (dec : List ℚ → ℕ → Option (List ℚ))
    (read : ℕ → Option (List Cq)) (procOk : ℕ → Bool) :
    ℕ → ℕ → Option Cq → List ℤ → ℕ → ℕ → LoopOut
  | 0, _, _, acc, dCnt, rCnt => ⟨ExitKind.completed, acc, dCnt, rCnt⟩
  | rem + 1, i, prev, acc, dCnt, rCnt =>
    match read i with
    | none => ⟨ExitKind.readFailure i, acc, dCnt, rCnt⟩
    | some iq =>
      if procOk i then
        let dm := fm_demodulate angle iq prev
        captureLoop angle dec read procOk rem (i + 1) dm.2
          (acc ++ processChunk dec dm.1) (dCnt + dm.1.length) (rCnt + iq.length)
      else ⟨ExitKind.procException i, acc, dCnt, rCnt + iq.length⟩

/-- Result of one `record_with_pyrtlsdr` run. -/
structure RunResult where
  exit : ExitKind
  frames : List ℤ
  demodCount : ℕ
  rawCount : ℕ
  wavClosed : Bool
  sdrClosed : Bool

/-- `record_with_pyrtlsdr` (lines 157-211): run `total_chunks duration_s`
chunks from index 0 with no anchor.  `wf.close()` (line 208) is reached only
when the loop ends normally — completion, or the caught read-error `break` —
while an exception raised in chunk processing propagates past it; only
`sdr.close()` sits in the `finally` (line 211) and runs on every path. -/
def record_with_pyrtlsdr (angle : Cq → ℚ) (dec : List ℚ → ℕ → Option (List ℚ))
    (read : ℕ → Option (List Cq)) (procOk : ℕ → Bool) (duration_s : ℚ) : RunResult :=
  let o := captureLoop angle dec read procOk (total_chunks duration_s) 0 none [] 0 0
  { exit := o.exit, frames := o.frames, demodCount := o.demodCount,
    rawCount := o.rawCount,
    wavClosed := match o.exit with
      | ExitKind.procException _ => false
      | _ => true,
    sdrClosed := true }

/-- The WAV header length field: the `wave` module rewrites the header with
the frames actually written when (and only when) the file is closed. -/
def headerFrames (r : RunResult) : Option ℕ :=
  if r.wavClosed then some r.frames.length else none

/-- `run_record` (lines 218-250): runs the capture — its `except` clause
swallows any exception from it — and in its `finally` removes the satellite
from `active_recordings` under the lock, on every exit path. -/
def run_record (angle : Cq → ℚ) (dec : List ℚ → ℕ → Option (List ℚ))
    (read : ℕ → Option (List Cq)) (procOk : ℕ → Bool) (duration_s : ℚ)
    (reg : Finset String) (satname : String) : RunResult × Finset String :=
  (record_with_pyrtlsdr angle dec read procOk duration_s, release reg satname)

/-- State of the reference fold over sample blocks. -/
structure FoldState where
  frames : List ℤ
  demodCount : ℕ
  rawCount : ℕ
  prev : Option Cq

/-- Processing of one sample block, as the loop body does it. -/
def chunkFoldStep (angle : Cq → ℚ) (dec : List ℚ → ℕ → Option (List ℚ))
    (st : FoldState) (iq : List Cq) : FoldState :=
  let dm := fm_demodulate angle iq st.prev
  ⟨st.frames ++ processChunk dec dm.1, st.demodCount + dm.1.length,
   st.rawCount + iq.length, dm.2⟩

/-- Reference fold: the frames and counters produced by processing a list of
sample blocks in order, threading the continuity anchor as the loop does. -/
def chunkFold (angle : Cq → ℚ) (dec : List ℚ → ℕ → Option (List ℚ))
    (blocks : List (List Cq)) : FoldState :=
  blocks.foldl (chunkFoldStep angle dec) ⟨[], 0, 0, none⟩

/-- Counterexample to claim C5: a one-chunk run whose chunk processing
raises ends in `procException`, and the WAV container is left unclosed —
`wf.close()` is not on that exit path (only `sdr.close()` is). -/
theorem C5_counterexample :
    (record_with_pyrtlsdr (fun _ => 0) (fun _ _ => none) (fun _ => some [(1, 0)])
      (fun _ => false) (1/4)).wavClosed = false := by
  have h1 : ratCeil ((1/4 : ℚ) / CHUNK_SECONDS) = 1 := by
    norm_num [ratCeil, CHUNK_SECONDS, floor_eq_intFloor]
  have ht : total_chunks (1/4) = 1 := by
    simp only [total_chunks, h1]
    decide
  simp only [record_with_pyrtlsdr, ht]
  simp [captureLoop]

/-- Claim C5 (amended): on every capture run the receiver resource is
released on every exit path, and the output container is finalized and
closed — with header fields reflecting the frames actually written — exactly
when the run did not end in an uncaught chunk-processing exception (i.e. on
normal completion and on the caught read-failure break).  A decimation
failure is caught inside the loop (the chunk falls back to striding) and so
never prevents the close; an uncaught exception raised during demodulation,
normalization, conversion or output write of a chunk propagates with the
container left unclosed. -/
theorem C5_cleanup_on_exit (angle : Cq → ℚ) (dec : List ℚ → ℕ → Option (List ℚ))
    (read : ℕ → Option (List Cq)) (procOk : ℕ → Bool) (d : ℚ) :
    (record_with_pyrtlsdr angle dec read procOk d).sdrClosed = true ∧
    ((record_with_pyrtlsdr angle dec read procOk d).wavClosed = true ↔
      ∀ k, (record_with_pyrtlsdr angle dec read procOk d).exit ≠ ExitKind.procException k) ∧
    ((record_with_pyrtlsdr angle dec read procOk d).wavClosed = true →
      headerFrames (record_with_pyrtlsdr angle dec read procOk d) =
        some (record_with_pyrtlsdr angle dec read procOk d).frames.length) := by
  refine ⟨rfl, ?_, ?_⟩
  · cases hex : (captureLoop angle dec read procOk (total_chunks d) 0 none [] 0 0).exit with
    | completed => simp [record_with_pyrtlsdr, hex]
    | readFailure j => simp [record_with_pyrtlsdr, hex]
    | procException j =>
      simp only [record_with_pyrtlsdr, hex]
      constructor
      · intro h
        exact absurd h (by simp)
      · intro h
        exact absurd rfl (h j)
  · intro hw
    simp [headerFrames, hw]

/-- Witness for C5 (amended) on a one-chunk run that completes normally. -/
theorem C5_cleanup_on_exit_witness :
    (record_with_pyrtlsdr (fun _ => 0) (fun _ _ => none) (fun _ => some [(1, 0)])
      (fun _ => true) (1/4)).sdrClosed = true ∧
    headerFrames (record_with_pyrtlsdr (fun _ => 0) (fun _ _ => none)
      (fun _ => some [(1, 0)]) (fun _ => true) (1/4)) =
      some (record_with_pyrtlsdr (fun _ => 0) (fun _ _ => none) (fun _ => some [(1, 0)])
        (fun _ => true) (1/4)).frames.length := by
  refine ⟨(C5_cleanup_on_exit _ _ _ _ _).1, (C5_cleanup_on_exit _ _ _ _ _).2.2 ?_⟩
  have h1 : ratCeil ((1/4 : ℚ) / CHUNK_SECONDS) = 1 := by
    norm_num [ratCeil, CHUNK_SECONDS, floor_eq_intFloor]
  have ht : total_chunks (1/4) = 1 := by
    simp only [total_chunks, h1]
    decide
  simp only [record_with_pyrtlsdr, ht]
  simp [captureLoop]

/-- The loop's control flow (exit kind) and raw-sample accounting do not
depend on the decimator or on the frames and demod counters accumulated so
far: a chunk whose decimation falls back is still an ordinary chunk. -/
lemma captureLoop_exit_indep (angle : Cq → ℚ) (read : ℕ → Option (List Cq))
    (procOk : ℕ → Bool) :
    ∀ (rem i : ℕ) (prev : Option Cq) (dec dec' : List ℚ → ℕ → Option (List ℚ))
      (acc acc' : List ℤ) (dc dc' r : ℕ),
    (captureLoop angle dec read procOk rem i prev acc dc r).exit =
      (captureLoop angle dec' read procOk rem i prev acc' dc' r).exit ∧
    (captureLoop angle dec read procOk rem i prev acc dc r).rawCount =
      (captureLoop angle dec' read procOk rem i prev acc' dc' r).rawCount := by
  intro rem
  induction rem with
  | zero =>
    intro i prev dec dec' acc acc' dc dc' r
    exact ⟨rfl, rfl⟩
  | succ rem ih =>
    intro i prev dec dec' acc acc' dc dc' r
    cases hread : read i with
    | none => simp [captureLoop, hread]
    | some iq =>
      cases hpo : procOk i with
      | false => simp [captureLoop, hread, hpo]
      | true =>
        simp only [captureLoop, hread, hpo, if_true]
        exact ih (i + 1) (fm_demodulate angle iq prev).2 dec dec' _ _ _ _ _

/-- Claim C7: per-chunk decimation fallback.  If either cascaded stage of
the decimator fails on a chunk, that chunk's output is the naive stride of
`ph` by the combined factor `DECIMATE_STAGE1 * DECIMATE_STAGE2`, still
normalized and converted; if both stages succeed the chunk is the decimated
output.  Moreover the run's control flow and chunk accounting are identical
for any two decimators, so a decimation failure never aborts the job. -/
theorem C7_decimation_fallback (dec : List ℚ → ℕ → Option (List ℚ)) (ph : List ℚ) :
    (dec ph DECIMATE_STAGE1 = none →
      processChunk dec ph =
        toPCM (normalize (stride ph (DECIMATE_STAGE1 * DECIMATE_STAGE2)))) ∧
    (∀ a48, dec ph DECIMATE_STAGE1 = some a48 → dec a48 DECIMATE_STAGE2 = none →
      processChunk dec ph =
        toPCM (normalize (stride ph (DECIMATE_STAGE1 * DECIMATE_STAGE2)))) ∧
    (∀ a48 a12, dec ph DECIMATE_STAGE1 = some a48 → dec a48 DECIMATE_STAGE2 = some a12 →
      processChunk dec ph = toPCM (normalize a12)) ∧
    (∀ (angle : Cq → ℚ) (dec' : List ℚ → ℕ → Option (List ℚ))
       (read : ℕ → Option (List Cq)) (procOk : ℕ → Bool) (rem i : ℕ)
       (prev : Option Cq) (acc acc' : List ℤ) (dc dc' r : ℕ),
      (captureLoop angle dec read procOk rem i prev acc dc r).exit =
        (captureLoop angle dec' read procOk rem i prev acc' dc' r).exit ∧
      (captureLoop angle dec read procOk rem i prev acc dc r).rawCount =
        (captureLoop angle dec' read procOk rem i prev acc' dc' r).rawCount) := by
  refine ⟨?_, ?_, ?_, ?_⟩
  · intro h
    simp [processChunk, h]
  · intro a48 h1 h2
    simp [processChunk, h1, h2]
  · intro a48 a12 h1 h2
    simp [processChunk, h1, h2]
  · intro angle dec' read procOk rem i prev acc acc' dc dc' r
    exact captureLoop_exit_indep angle read procOk rem i prev dec dec' acc acc' dc dc' r

/-- Witness for C7 at a decimator that always fails, on the chunk `[1]`. -/
theorem C7_decimation_fallback_witness :
    processChunk (fun _ _ => none) [1] =
      toPCM (normalize (stride [1] (DECIMATE_STAGE1 * DECIMATE_STAGE2))) :=
  (C7_decimation_fallback (fun _ _ => none) [1]).1 rfl

lemma fm_demodulate_len_some (angle : Cq → ℚ) (iq : List Cq) (p : Cq) :
    (fm_demodulate angle iq (some p)).1.length = iq.length := by
  simp [fm_demodulate]

lemma fm_demodulate_len_none (angle : Cq → ℚ) (iq : List Cq) :
    (fm_demodulate angle iq none).1.length = iq.length - 1 := by
  simp [fm_demodulate]

lemma fm_demodulate_last (angle : Cq → ℚ) (iq : List Cq) (prev : Option Cq)
    (h : iq ≠ []) : (fm_demodulate angle iq prev).2 = iq.getLast? := by
  cases prev with
  | none => rfl
  | some p =>
    cases iq with
    | nil => exact absurd rfl h
    | cons a l => simp [fm_demodulate, List.getLast?_cons_cons]

lemma fm_demodulate_last_isSome (angle : Cq → ℚ) (iq : List Cq) (prev : Option Cq)
    (h : iq ≠ []) : ∃ q, (fm_demodulate angle iq prev).2 = some q := by
  rw [fm_demodulate_last angle iq prev h]
  cases hq : iq.getLast? with
  | none => exact absurd (List.getLast?_eq_none_iff.1 hq) h
  | some q => exact ⟨q, rfl⟩

lemma foldl_rawCount (angle : Cq → ℚ) (dec : List ℚ → ℕ → Option (List ℚ)) :
    ∀ (blocks : List (List Cq)) (st : FoldState),
    (blocks.foldl (chunkFoldStep angle dec) st).rawCount
      = st.rawCount + (blocks.map List.length).sum := by
  intro blocks
  induction blocks with
  | nil =>
    intro st
    simp
  | cons b rest ih =>
    intro st
    simp only [List.foldl_cons, List.map_cons, List.sum_cons]
    rw [ih]
    simp only [chunkFoldStep]
    omega

lemma foldl_demod_some (angle : Cq → ℚ) (dec : List ℚ → ℕ → Option (List ℚ)) :
    ∀ (blocks : List (List Cq)) (st : FoldState) (q : Cq),
    st.prev = some q → (∀ b ∈ blocks, b ≠ []) →
    (blocks.foldl (chunkFoldStep angle dec) st).demodCount
      = st.demodCount + (blocks.map List.length).sum := by
  intro blocks
  induction blocks with
  | nil =>
    intro st q hq hne
    simp
  | cons b rest ih =>
    intro st q hq hne
    have hb : b ≠ [] := hne b (List.mem_cons_self _ _)
    obtain ⟨q', hq'⟩ := fm_demodulate_last_isSome angle b st.prev hb
    simp only [List.foldl_cons, List.map_cons, List.sum_cons]
    rw [ih (chunkFoldStep angle dec st b) q' (by simp [chunkFoldStep, hq'])
      (fun x hx => hne x (List.mem_cons_of_mem _ hx))]
    simp only [chunkFoldStep]
    rw [hq, fm_demodulate_len_some]
    omega

lemma chunkFold_counts (angle : Cq → ℚ) (dec : List ℚ → ℕ → Option (List ℚ))
    (blocks : List (List Cq)) (hne : ∀ b ∈ blocks, b ≠ []) (hblk : blocks ≠ []) :
    (chunkFold angle dec blocks).rawCount = (blocks.map List.length).sum ∧
    (chunkFold angle dec blocks).demodCount = (blocks.map List.length).sum - 1 := by
  constructor
  · rw [chunkFold, foldl_rawCount]
    simp
  · cases blocks with
    | nil => exact absurd rfl hblk
    | cons b rest =>
      have hb : b ≠ [] := hne b (List.mem_cons_self _ _)
      have hb1 : 1 ≤ b.length := List.length_pos.2 hb
      obtain ⟨q', hq'⟩ := fm_demodulate_last_isSome angle b none hb
      rw [chunkFold]
      simp only [List.foldl_cons]
      rw [foldl_demod_some angle dec rest
        (chunkFoldStep angle dec ⟨[], 0, 0, none⟩ b) q'
        (by simp [chunkFoldStep, hq'])
        (fun x hx => hne x (List.mem_cons_of_mem _ hx))]
      simp only [chunkFoldStep, List.map_cons, List.sum_cons]
      rw [fm_demodulate_len_none]
      omega

/-- A run in which every chunk up to the horizon reads successfully and
raises no exception is exactly the reference fold, ending `completed`. -/
lemma captureLoop_complete (angle : Cq → ℚ) (dec : List ℚ → ℕ → Option (List ℚ))
    (read : ℕ → Option (List Cq)) (procOk : ℕ → Bool) (bs : ℕ → List Cq) :
    ∀ (rem i : ℕ) (st : FoldState),
    (∀ j, j < rem → read (i + j) = some (bs (i + j)) ∧ procOk (i + j) = true) →
    captureLoop angle dec read procOk rem i st.prev st.frames st.demodCount st.rawCount =
      ⟨ExitKind.completed,
       (((List.range rem).map fun j => bs (i + j)).foldl (chunkFoldStep angle dec) st).frames,
       (((List.range rem).map fun j => bs (i + j)).foldl (chunkFoldStep angle dec) st).demodCount,
       (((List.range rem).map fun j => bs (i + j)).foldl (chunkFoldStep angle dec) st).rawCount⟩ := by
  intro rem
  induction rem with
  | zero =>
    intro i st h
    simp [captureLoop]
  | succ rem ih =>
    intro i st h
    obtain ⟨hr, hp⟩ := h 0 (Nat.succ_pos _)
    rw [Nat.add_zero] at hr hp
    have hrest : ∀ j, j < rem →
        read ((i + 1) + j) = some (bs ((i + 1) + j)) ∧ procOk ((i + 1) + j) = true := by
      intro j hj
      have hh := h (j + 1) (Nat.succ_lt_succ hj)
      rwa [show i + (j + 1) = (i + 1) + j by omega] at hh
    have hmap : (List.range (rem + 1)).map (fun j => bs (i + j))
        = bs i :: (List.range rem).map fun j => bs ((i + 1) + j) := by
      rw [List.range_succ_eq_map, List.map_cons, List.map_map]
      refine congrArg₂ _ (by simp) ?_
      refine List.map_congr_left ?_
      intro a ha
      simp only [Function.comp_apply]
      congr 1
      omega
    rw [hmap]
    simp only [List.foldl_cons]
    have hgoal := ih (i + 1) (chunkFoldStep angle dec st (bs i)) hrest
    simp only [captureLoop, hr, hp, if_true]
    exact hgoal

/-- A run whose read fails at chunk `k` (all earlier chunks fine) stops
there: it is the reference fold of the first `k` blocks, ending in
`readFailure k`. -/
lemma captureLoop_readfail (angle : Cq → ℚ) (dec : List ℚ → ℕ → Option (List ℚ))
    (read : ℕ → Option (List Cq)) (procOk : ℕ → Bool) (bs : ℕ → List Cq) :
    ∀ (k rem i : ℕ) (st : FoldState),
    k < rem →
    read (i + k) = none →
    (∀ j, j < k → read (i + j) = some (bs (i + j)) ∧ procOk (i + j) = true) →
    captureLoop angle dec read procOk rem i st.prev st.frames st.demodCount st.rawCount =
      ⟨ExitKind.readFailure (i + k),
       (((List.range k).map fun j => bs (i + j)).foldl (chunkFoldStep angle dec) st).frames,
       (((List.range k).map fun j => bs (i + j)).foldl (chunkFoldStep angle dec) st).demodCount,
       (((List.range k).map fun j => bs (i + j)).foldl (chunkFoldStep angle dec) st).rawCount⟩ := by
  intro k
  induction k with
  | zero =>
    intro rem i st hk hfail h
    cases rem with
    | zero => omega
    | succ rem =>
      rw [Nat.add_zero] at hfail
      simp [captureLoop, hfail]
  | succ k ih =>
    intro rem i st hk hfail h
    cases rem with
    | zero => omega
    | succ rem =>
      obtain ⟨hr, hp⟩ := h 0 (Nat.succ_pos _)
      rw [Nat.add_zero] at hr hp
      have hfail' : read ((i + 1) + k) = none := by
        rwa [show i + (k + 1) = (i + 1) + k by omega] at hfail
      have hrest : ∀ j, j < k →
          read ((i + 1) + j) = some (bs ((i + 1) + j)) ∧ procOk ((i + 1) + j) = true := by
        intro j hj
        have hh := h (j + 1) (Nat.succ_lt_succ hj)
        rwa [show i + (j + 1) = (i + 1) + j by omega] at hh
      have hmap : (List.range (k + 1)).map (fun j => bs (i + j))
          = bs i :: (List.range k).map fun j => bs ((i + 1) + j) := by
        rw [List.range_succ_eq_map, List.map_cons, List.map_map]
        refine congrArg₂ _ (by simp) ?_
        refine List.map_congr_left ?_
        intro a ha
        simp only [Function.comp_apply]
        congr 1
        omega
      rw [hmap]
      simp only [List.foldl_cons]
      rw [show i + (k + 1) = (i + 1) + k by omega]
      have hgoal := ih rem (i + 1) (chunkFoldStep angle dec st (bs i)) (by omega) hfail' hrest
      simp only [captureLoop, hr, hp, if_true]
      exact hgoal

/-- `release` never leaves the released name in the registry. -/
lemma not_mem_release_self (reg : Finset String) (n : String) : n ∉ release reg n := by
  by_cases h : n ∈ reg <;> simp [release, h]

/-- Claim C10: demodulator length accounting.  With a continuity anchor, a
raw block of length N demodulates to exactly N samples and the returned
anchor is the block's last raw sample; without an anchor (first chunk) the
block demodulates to N − 1 samples.  Consequently a capture run in which
every chunk reads a nonempty block and completes has total demodulated
samples equal to total raw samples read minus one. -/
theorem C10_demodulator_length_accounting (angle : Cq → ℚ) (iq : List Cq) (p : Cq)
    (hne : iq ≠ []) :
    (fm_demodulate angle iq (some p)).1.length = iq.length ∧
    (fm_demodulate angle iq (some p)).2 = iq.getLast? ∧
    (fm_demodulate angle iq none).1.length = iq.length - 1 ∧
    (∀ (dec : List ℚ → ℕ → Option (List ℚ)) (read : ℕ → Option (List Cq))
       (procOk : ℕ → Bool) (bs : ℕ → List Cq) (d : ℚ),
      (∀ j, j < total_chunks d → read j = some (bs j) ∧ bs j ≠ [] ∧ procOk j = true) →
      (record_with_pyrtlsdr angle dec read procOk d).exit = ExitKind.completed ∧
      (record_with_pyrtlsdr angle dec read procOk d).rawCount
        = ((((List.range (total_chunks d)).map bs).map List.length).sum) ∧
      (record_with_pyrtlsdr angle dec read procOk d).demodCount
        = (record_with_pyrtlsdr angle dec read procOk d).rawCount - 1) := by
  refine ⟨fm_demodulate_len_some angle iq p, fm_demodulate_last angle iq (some p) hne,
    fm_demodulate_len_none angle iq, ?_⟩
  intro dec read procOk bs d h
  have hloop := captureLoop_complete angle dec read procOk bs (total_chunks d) 0
    ⟨[], 0, 0, none⟩ (fun j hj => by
      have hh := h j hj
      refine ⟨?_, ?_⟩
      · rw [Nat.zero_add]
        exact hh.1
      · rw [Nat.zero_add]
        exact hh.2.2)
  have hbl : ((List.range (total_chunks d)).map fun j => bs (0 + j))
      = (List.range (total_chunks d)).map bs :=
    List.map_congr_left fun a ha => by rw [Nat.zero_add]
  rw [hbl] at hloop
  have ho : captureLoop angle dec read procOk (total_chunks d) 0 none [] 0 0 =
      ⟨ExitKind.completed,
       (((List.range (total_chunks d)).map bs).foldl (chunkFoldStep angle dec)
         ⟨[], 0, 0, none⟩).frames,
       (((List.range (total_chunks d)).map bs).foldl (chunkFoldStep angle dec)
         ⟨[], 0, 0, none⟩).demodCount,
       (((List.range (total_chunks d)).map bs).foldl (chunkFoldStep angle dec)
         ⟨[], 0, 0, none⟩).rawCount⟩ := hloop
  have hn1 : 1 ≤ total_chunks d := by
    simp only [total_chunks]
    exact le_max_left _ _
  have hfold := chunkFold_counts angle dec ((List.range (total_chunks d)).map bs)
    (fun b hb => by
      obtain ⟨j, hj, rfl⟩ := List.mem_map.1 hb
      exact (h j (List.mem_range.1 hj)).2.1)
    (by
      simp only [ne_eq, List.map_eq_nil_iff, List.range_eq_nil]
      omega)
  have hraw : (((List.range (total_chunks d)).map bs).foldl (chunkFoldStep angle dec)
      ⟨[], 0, 0, none⟩).rawCount = (((List.range (total_chunks d)).map bs).map List.length).sum :=
    hfold.1
  have hdem : (((List.range (total_chunks d)).map bs).foldl (chunkFoldStep angle dec)
      ⟨[], 0, 0, none⟩).demodCount
      = (((List.range (total_chunks d)).map bs).map List.length).sum - 1 :=
    hfold.2
  refine ⟨?_, ?_, ?_⟩
  · simp only [record_with_pyrtlsdr]
    rw [ho]
  · simp only [record_with_pyrtlsdr]
    rw [ho]
    exact hraw
  · simp only [record_with_pyrtlsdr]
    rw [ho]
    rw [hraw, hdem]

/-- Witness for C10 on the one-sample block [(1, 0)] with anchor (0, 0). -/
theorem C10_demodulator_length_accounting_witness :
    ([((1 : ℚ), (0 : ℚ))] ≠ ([] : List Cq)) ∧
    (fm_demodulate (fun _ => 0) [(1, 0)] (some (0, 0))).1.length = 1 := by
  refine ⟨by simp, ?_⟩
  have hh := (C10_demodulator_length_accounting (fun _ => 0) [(1, 0)] (0, 0) (by simp)).1
  simpa using hh

/-- Claim C6: read-failure semantics.  If the receiver read for chunk `k`
fails (all earlier chunks read fine and raise nothing), the run stops at
chunk `k` — no later chunk is read or processed — the output file keeps
exactly the frames of chunks before `k` and is closed (partial file kept),
the run's exit records the stream failure at chunk `k` (the logged SDR read
error), the receiver is released, and the worker's registry entry for the
satellite is released. -/
theorem C6_read_failure_semantics (angle : Cq → ℚ) (dec : List ℚ → ℕ → Option (List ℚ))
    (read : ℕ → Option (List Cq)) (procOk : ℕ → Bool) (bs : ℕ → List Cq) (d : ℚ)
    (reg : Finset String) (satname : String) (k : ℕ)
    (hk : k < total_chunks d) (hfail : read k = none)
    (hok : ∀ j, j < k → read j = some (bs j) ∧ procOk j = true) :
    (record_with_pyrtlsdr angle dec read procOk d).exit = ExitKind.readFailure k ∧
    (record_with_pyrtlsdr angle dec read procOk d).frames
      = (chunkFold angle dec ((List.range k).map bs)).frames ∧
    (record_with_pyrtlsdr angle dec read procOk d).rawCount
      = (((List.range k).map bs).map List.length).sum ∧
    (record_with_pyrtlsdr angle dec read procOk d).wavClosed = true ∧
    (record_with_pyrtlsdr angle dec read procOk d).sdrClosed = true ∧
    satname ∉ (run_record angle dec read procOk d reg satname).2 := by
  have hloop := captureLoop_readfail angle dec read procOk bs k (total_chunks d) 0
    ⟨[], 0, 0, none⟩ hk
    (by rw [Nat.zero_add]; exact hfail)
    (fun j hj => by
      have hh := hok j hj
      refine ⟨?_, ?_⟩
      · rw [Nat.zero_add]
        exact hh.1
      · rw [Nat.zero_add]
        exact hh.2)
  have hbl : ((List.range k).map fun j => bs (0 + j)) = (List.range k).map bs :=
    List.map_congr_left fun a ha => by rw [Nat.zero_add]
  rw [hbl] at hloop
  have ho : captureLoop angle dec read procOk (total_chunks d) 0 none [] 0 0 =
      ⟨ExitKind.readFailure (0 + k),
       (((List.range k).map bs).foldl (chunkFoldStep angle dec) ⟨[], 0, 0, none⟩).frames,
       (((List.range k).map bs).foldl (chunkFoldStep angle dec) ⟨[], 0, 0, none⟩).demodCount,
       (((List.range k).map bs).foldl (chunkFoldStep angle dec) ⟨[], 0, 0, none⟩).rawCount⟩ :=
    hloop
  rw [Nat.zero_add] at ho
  have hraw : (((List.range k).map bs).foldl (chunkFoldStep angle dec)
      ⟨[], 0, 0, none⟩).rawCount = (((List.range k).map bs).map List.length).sum := by
    rw [foldl_rawCount]
    simp
  refine ⟨?_, ?_, ?_, ?_, rfl, not_mem_release_self reg satname⟩
  · simp only [record_with_pyrtlsdr]
    rw [ho]
  · simp only [record_with_pyrtlsdr]
    rw [ho]
    rfl
  · simp only [record_with_pyrtlsdr]
    rw [ho]
    exact hraw
  · simp only [record_with_pyrtlsdr]
    rw [ho]

/-- Witness for C6 on a two-chunk run whose second read fails. -/
theorem C6_read_failure_semantics_witness :
    (1 < total_chunks (1/2)) ∧
    (record_with_pyrtlsdr (fun _ => 0) (fun _ _ => none)
        (fun i => if i = 0 then some [(1, 0)] else none) (fun _ => true) (1/2)).exit
      = ExitKind.readFailure 1 ∧
    "NOAA-19" ∉ (run_record (fun _ => 0) (fun _ _ => none)
        (fun i => if i = 0 then some [(1, 0)] else none) (fun _ => true) (1/2)
        ∅ "NOAA-19").2 := by
  have h2 : ratCeil ((1/2 : ℚ) / CHUNK_SECONDS) = 2 := by
    norm_num [ratCeil, CHUNK_SECONDS, floor_eq_intFloor]
  have ht : total_chunks (1/2) = 2 := by
    simp only [total_chunks, h2]
    decide
  have hk : 1 < total_chunks (1/2) := by
    rw [ht]
    omega
  have hmain := C6_read_failure_semantics (fun _ => 0) (fun _ _ => none)
    (fun i => if i = 0 then some [(1, 0)] else none) (fun _ => true)
    (fun _ => [(1, 0)]) (1/2) ∅ "NOAA-19" 1 hk rfl
    (fun j hj => by
      have hj0 : j = 0 := by omega
      subst hj0
      exact ⟨rfl, rfl⟩)
  exact ⟨hk, hmain.1, hmain.2.2.2.2.2⟩

/-! ## SatelliteCatalog loading (`load_config`, record_schedule.py lines 81-103)

The entry loop reads `entry['name']`, `entry['tle1']`, `entry['tle2']` for
each document entry with no per-entry exception handler: a missing key
raises `KeyError` out of `load_config` (modelled as `Except.error`). -/

/-- A raw configuration entry: the three fields `load_config` subscripts,
each possibly missing from the document. -/
structure RawEntry where
  name : Option String
  tle1 : Option String
  tle2 : Option String

/-- Reading one entry's fields: the first missing key raises (`KeyError`),
otherwise the satellite definition data is produced. -/
def parseEntry (e : RawEntry) : Except Unit (String × String × String) :=
  match e.name, e.tle1, e.tle2 with
  | some n, some t1, some t2 => Except.ok (n, t1, t2)
  | _, _, _ => Except.error ()

/-- The entry loop of `load_config` (lines 93-98): entries are processed in
order, and an exception from any entry aborts the whole load.  (The source
stores results in a dict keyed by name; the list model keeps the insertion
order.) -/
def load_config (entries : List RawEntry) :
    Except Unit (List (String × String × String)) :=
  entries.foldl
    (fun acc e => acc.bind fun l => (parseEntry e).map fun v => l ++ [v])
    (Except.ok [])

lemma load_foldl_error (es : List RawEntry) :
    es.foldl (fun acc e => acc.bind fun l => (parseEntry e).map fun v => l ++ [v])
      (Except.error ()) = Except.error () := by
  induction es with
  | nil => rfl
  | cons e rest ih =>
    simp only [List.foldl_cons]
    exact ih

lemma load_config_error_aux (entries : List RawEntry) :
    ∀ l0 : List (String × String × String),
    (∃ e ∈ entries, parseEntry e = Except.error ()) →
    entries.foldl (fun acc e => acc.bind fun l => (parseEntry e).map fun v => l ++ [v])
      (Except.ok l0) = Except.error () := by
  induction entries with
  | nil =>
    intro l0 h
    obtain ⟨e, he, _⟩ := h
    exact absurd he (List.not_mem_nil e)
  | cons e rest ih =>
    intro l0 h
    simp only [List.foldl_cons]
    cases hpe : parseEntry e with
    | error u =>
      cases u
      exact load_foldl_error rest
    | ok v =>
      obtain ⟨b, hb, hbe⟩ := h
      rcases List.mem_cons.1 hb with rfl | hbr
      · rw [hpe] at hbe
        exact absurd hbe (by simp)
      · exact ih (l0 ++ [v]) ⟨b, hbr, hbe⟩

lemma load_config_ok_aux (entries : List RawEntry) :
    ∀ l0 : List (String × String × String),
    (∀ e ∈ entries, ∃ v, parseEntry e = Except.ok v) →
    ∃ vs, entries.foldl
        (fun acc e => acc.bind fun l => (parseEntry e).map fun v => l ++ [v])
        (Except.ok l0) = Except.ok (l0 ++ vs) ∧
      List.Forall₂ (fun e v => parseEntry e = Except.ok v) entries vs := by
  induction entries with
  | nil =>
    intro l0 h
    exact ⟨[], by simp, List.Forall₂.nil⟩
  | cons e rest ih =>
    intro l0 h
    obtain ⟨v, hv⟩ := h e (List.mem_cons_self _ _)
    simp only [List.foldl_cons]
    have hs : ((Except.ok l0).bind fun l => (parseEntry e).map fun w => l ++ [w])
        = Except.ok (l0 ++ [v]) := by
      rw [hv]
      rfl
    rw [hs]
    obtain ⟨vs, hvs, hf⟩ := ih (l0 ++ [v]) (fun x hx => h x (List.mem_cons_of_mem _ hx))
    refine ⟨v :: vs, ?_, List.Forall₂.cons hv hf⟩
    rw [hvs]
    simp

/-- Counterexample to claim C8: a document with one well-formed entry
followed by one entry lacking its name makes `load_config` fail wholesale —
the load does not succeed with the malformed entry excluded. -/
theorem C8_counterexample :
    load_config [⟨some "NOAA-19", some "tle1", some "tle2"⟩,
                 ⟨none, some "tle1", some "tle2"⟩] = Except.error () := rfl

/-- Claim C8 (amended): catalog loading is not tolerant of malformed
entries: any entry with a missing field aborts the whole load with the
raised error (no catalog, not even the well-formed entries, is returned),
while a document whose entries are all well-formed loads every entry in
order. -/
theorem C8_malformed_entry_tolerance (entries : List RawEntry) :
    ((∃ e ∈ entries, parseEntry e = Except.error ()) →
      load_config entries = Except.error ()) ∧
    ((∀ e ∈ entries, ∃ v, parseEntry e = Except.ok v) →
      ∃ vs, load_config entries = Except.ok vs ∧
        List.Forall₂ (fun e v => parseEntry e = Except.ok v) entries vs) := by
  constructor
  · intro h
    exact load_config_error_aux entries [] h
  · intro h
    obtain ⟨vs, hvs, hf⟩ := load_config_ok_aux entries [] h
    refine ⟨vs, ?_, hf⟩
    rw [load_config, hvs]
    simp

/-- Witness for C8 (amended) at the two-entry document of the
counterexample configuration. -/
theorem C8_malformed_entry_tolerance_witness :
    load_config [⟨some "NOAA-19", some "tle1", some "tle2"⟩,
                 ⟨none, some "tle1", some "tle2"⟩] = Except.error () :=
  (C8_malformed_entry_tolerance _).1
    ⟨⟨none, some "tle1", some "tle2"⟩, by simp, rfl⟩

end SatTrack
